import Mathlib

/-!
Shallow embedding of the replacer module (`src/replacer/mod.rs`) of the
search-and-replace tool, together with theorems checking the natural-language
specification against it.

Bytes are modelled as `List Nat`.  The external byte-oriented pattern-matching
engine is abstracted: a compiled pattern applied to a haystack yields a list of
leftmost non-overlapping match spans, and a replacer (`regex::bytes::Replacer`)
is abstracted as a function from the match (with its captures) to the bytes it
appends.  `Replacer::replacen`, the flag handling of `Replacer::new`, literal
mode, and the `replace_file` state machine are translated from the source.
-/

/-- A match span: a half-open byte-offset range `[start, stop)` within the
haystack, as produced by the matching engine (`m.start()` / `m.end()`;
`stop` stands for Rust's `end`, which is a keyword-like name in Lean). -/
structure MatchSpan where
  start : Nat
  stop : Nat
deriving DecidableEq

/-- Model of `std::borrow::Cow<'a, [u8]>` as returned by `replacen`:
either the borrowed input byteSlice itself (no new buffer allocated) or a newly
built owned buffer. -/
inductive Cow where
  | borrowed : Cow
  | owned : List Nat → Cow
deriving DecidableEq

/-- The bytes a `Cow` denotes, given the borrowed haystack. -/
def Cow.toBytes (haystack : List Nat) : Cow → List Nat
  | Cow.borrowed => haystack
  | Cow.owned bs => bs

/-- Rust byteSlice `&haystack[lo..hi]`. -/
def byteSlice (xs : List Nat) (lo hi : Nat) : List Nat := (xs.take hi).drop lo

/-- The loop of `Replacer::replacen` (src/replacer/mod.rs lines 128-148):
for each match, copy the bytes since the previous match's end, append the
color start marker when `useColor` is set, append the replacer's bytes for
this match, append the color end marker when `useColor` is set, and stop
after the `limit`-th replacement when `limit > 0`; finally copy the rest of
the haystack verbatim.  `i` is the enumeration counter and `lastMatch` the
end of the previous match (line 127). -/
def replacenLoop (haystack cStart cEnd : List Nat) (useColor : Bool)
    (rep : MatchSpan → List Nat) (limit : Nat) :
    List MatchSpan → Nat → Nat → List Nat
  | [], _, lastMatch => haystack.drop lastMatch
  | m :: ms, i, lastMatch =>
      byteSlice haystack lastMatch m.start
        ++ (if useColor then cStart else [])
        ++ rep m
        ++ (if useColor then cEnd else [])
        ++ (if 0 < limit ∧ limit - 1 ≤ i then haystack.drop m.stop
            else replacenLoop haystack cStart cEnd useColor rep limit ms (i + 1) m.stop)

/-- `Replacer::replacen` (src/replacer/mod.rs lines 115-150): when the
match iterator is empty, return the borrowed haystack (lines 122-125);
otherwise build a new owned buffer with the loop (lines 126-149). -/
def replacen (haystack cStart cEnd : List Nat) (useColor : Bool)
    (rep : MatchSpan → List Nat) (limit : Nat) (ms : List MatchSpan) : Cow :=
  match ms with
  | [] => Cow.borrowed
  | _ :: _ => Cow.owned (replacenLoop haystack cStart cEnd useColor rep limit ms 0 0)

/-- Spec-side definition (spec sections 4.2 and 8): replace exactly the first
`k` matches.  For each of the first `k` matches in order, copy all bytes since
the previous match's end verbatim and append the rendered replacement; then
copy all remaining content verbatim, so any match beyond the `k`-th appears
untouched in the output and all bytes outside the replaced spans are the
original bytes. -/
def specReplaceFirstK (haystack : List Nat) (rep : MatchSpan → List Nat) :
    Nat → Nat → List MatchSpan → List Nat
  | lastMatch, _, [] => haystack.drop lastMatch
  | lastMatch, 0, _ :: _ => haystack.drop lastMatch
  | lastMatch, k + 1, m :: ms =>
      byteSlice haystack lastMatch m.start ++ rep m
        ++ specReplaceFirstK haystack rep m.stop k ms

/-- Bytes of the start highlight marker inserted by `replacen` when
`use_color` is set: model of the external highlight collaborator's
`ansi_term::Color::Blue.prefix()`, the ANSI escape `ESC [ 3 4 m`. -/
def ansiBlueStart : List Nat := [27, 91, 51, 52, 109]

/-- Bytes of the end highlight marker inserted by `replacen` when
`use_color` is set: model of the external highlight collaborator's
`ansi_term::Color::Blue.suffix()`, the ANSI escape `ESC [ 0 m`. -/
def ansiBlueEnd : List Nat := [27, 91, 48, 109]

/-- Scan of the external matching engine applied to an escaped literal
pattern, from position `pos` with explicit fuel: at each position, if the
literal needle starts there, report the match `[pos, pos + |needle|)` and
continue at its end (leftmost, non-overlapping), otherwise advance one byte.
Models the engine's documented guarantee that a pattern produced by
`regex::escape(s)` matches exactly the byte sequence of `s`. -/
def literalMatchesAux (needle hay : List Nat) : Nat → Nat → List MatchSpan
  | 0, _ => []
  | fuel + 1, pos =>
      if pos < hay.length then
        if needle ≠ [] ∧ needle.isPrefixOf (hay.drop pos) then
          ⟨pos, pos + needle.length⟩ :: literalMatchesAux needle hay fuel (pos + needle.length)
        else
          literalMatchesAux needle hay fuel (pos + 1)
      else []

/-- All leftmost non-overlapping occurrences of the literal `needle` in
`hay`, as match spans (the fuel `hay.length + 1` is enough for the whole
scan). -/
def literalMatches (needle hay : List Nat) : List MatchSpan :=
  literalMatchesAux needle hay (hay.length + 1) 0

/-- The compiled `Replacer` (src/replacer/mod.rs lines 13-18) in literal mode
(`is_literal = true`): `look_for` was escaped by `regex::escape` (line 29), so
the engine model finds exact occurrences of its bytes, and `replace_with` is
wrapped in `regex::bytes::NoExpand` (line 100), so the replacer appends its
bytes verbatim for every match.  `replacements` is the limit. -/
structure Replacer where
  lookFor : List Nat
  replaceWith : List Nat
  replacements : Nat
deriving DecidableEq

/-- `Replacer::replace` (src/replacer/mod.rs lines 87-111) in literal mode:
`replacen` with `use_color = false` and the `NoExpand` replacer, which
appends `replace_with` verbatim at every match. -/
def Replacer.replace (r : Replacer) (content : List Nat) : Cow :=
  replacen content ansiBlueStart ansiBlueEnd false (fun _ => r.replaceWith)
    r.replacements (literalMatches r.lookFor content)

/-- `Replacer::replace_preview` (src/replacer/mod.rs lines 152-177) in literal
mode: identical to `replace` except `use_color = true`, so each appended
replacement is wrapped in the highlight marker bytes. -/
def Replacer.replacePreview (r : Replacer) (content : List Nat) : Cow :=
  replacen content ansiBlueStart ansiBlueEnd true (fun _ => r.replaceWith)
    r.replacements (literalMatches r.lookFor content)

/-- Removal of every occurrence of the two marker byte sequences from `out`,
scanning left to right with explicit fuel: whenever one of the (non-empty)
markers starts at the current position it is removed and the scan resumes
after it, otherwise the current byte is kept. -/
def stripAllAux (cStart cEnd : List Nat) : Nat → List Nat → List Nat
  | 0, xs => xs
  | _ + 1, [] => []
  | fuel + 1, x :: xs =>
      if cStart ≠ [] ∧ cStart.isPrefixOf (x :: xs) then
        stripAllAux cStart cEnd fuel ((x :: xs).drop cStart.length)
      else if cEnd ≠ [] ∧ cEnd.isPrefixOf (x :: xs) then
        stripAllAux cStart cEnd fuel ((x :: xs).drop cEnd.length)
      else
        x :: stripAllAux cStart cEnd fuel xs

/-- Removal of every occurrence of the start and end marker byte sequences
from `out` (fuel `out.length` is enough: every step consumes at least one
byte). -/
def stripAll (cStart cEnd out : List Nat) : List Nat :=
  stripAllAux cStart cEnd out.length out

/-- Spec-side definition (spec sections 4.1 and 8, literal mode): every
character of `needle` is matched verbatim — regex metacharacters have no
special interpretation — so exactly the leftmost non-overlapping occurrences
of its byte sequence are replaced, each by the bytes of `rep` copied verbatim
with no capture interpolation, and every byte outside an occurrence is
kept. -/
def specLiteralReplaceAll (needle rep : List Nat) : List Nat → List Nat
  | [] => []
  | x :: xs =>
      if h : needle ≠ [] ∧ needle.isPrefixOf (x :: xs) then
        rep ++ specLiteralReplaceAll needle rep ((x :: xs).drop needle.length)
      else
        x :: specLiteralReplaceAll needle rep xs
termination_by l => l.length
decreasing_by
  · have hn : 0 < needle.length := List.length_pos.mpr h.1
    simp only [List.length_drop, List.length_cons]
    omega
  · simp

/-- Model of `regex::bytes::RegexBuilder`: the pattern text and the three
matcher options the replacer code touches.  `RegexBuilder::new` defaults:
case-sensitive, multi-line off, dot does not match newline. -/
structure RegexBuilder where
  pattern : List Char
  caseInsensitive : Bool
  multiLine : Bool
  dotMatchesNewLine : Bool
deriving DecidableEq

/-- `regex::bytes::RegexBuilder::new(pat)`: all options at their engine
defaults. -/
def RegexBuilder.new (pat : List Char) : RegexBuilder :=
  { pattern := pat, caseInsensitive := false, multiLine := false,
    dotMatchesNewLine := false }

/-- The `\b<pattern>\b` wrapping built by the `w` flag
(src/replacer/mod.rs lines 59-62). -/
def wordWrap (pat : List Char) : List Char :=
  '\\' :: 'b' :: pat ++ ['\\', 'b']

/-- Model of Rust's `flags.contains(c)` on the flag string. -/
def hasChar : List Char → Char → Bool
  | [], _ => false
  | c :: cs, a => if c = a then true else hasChar cs a

/-- One iteration of the flag loop in `Replacer::new`
(src/replacer/mod.rs lines 45-66): `c` forces case-sensitive, `i` forces
case-insensitive, `m` is a no-op, `e` disables multi-line, `s` disables
multi-line unless the whole flag string contains `m` and then enables
dot-matches-newline, `w` rebuilds the builder from scratch on the
`\b`-wrapped pattern, and any other character is ignored.  `lookFor` is the
(escaped or raw) pattern text and `flags` the whole flag string. -/
def applyFlag (lookFor flags : List Char) (b : RegexBuilder) (c : Char) :
    RegexBuilder :=
  if c = 'c' then { b with caseInsensitive := false }
  else if c = 'i' then { b with caseInsensitive := true }
  else if c = 'm' then b
  else if c = 'e' then { b with multiLine := false }
  else if c = 's' then
    { (if !(hasChar flags 'm') then { b with multiLine := false } else b) with
        dotMatchesNewLine := true }
  else if c = 'w' then RegexBuilder.new (wordWrap lookFor)
  else b

/-- The flag loop of `Replacer::new`: fold `applyFlag` over the flag
characters in order. -/
def applyFlags (lookFor flags : List Char) (b : RegexBuilder) :
    List Char → RegexBuilder
  | [] => b
  | c :: cs => applyFlags lookFor flags (applyFlag lookFor flags b c) cs

/-- The builder configuration produced by `Replacer::new`
(src/replacer/mod.rs lines 41-67): start from `RegexBuilder::new(look_for)`,
enable multi-line matching, then apply each flag character in order. -/
def compileBuilder (lookFor : List Char) (flags : Option (List Char)) :
    RegexBuilder :=
  let b : RegexBuilder := { RegexBuilder.new lookFor with multiLine := true }
  match flags with
  | none => b
  | some fs => applyFlags lookFor fs b fs

/-- The file-system operations `replace_file` performs, in source order
(src/replacer/mod.rs lines 179-211).  Each event names one call that touches
the file system or the mappings. -/
inductive Event where
  | openSource
  | readOneByte
  | openSource2
  | readMetadata
  | mapSource
  | computeReplacement
  | createTempFile
  | setTempLen
  | setTempPermissions
  | mapTempWritable
  | writeTemp
  | flushTemp
  | releaseSource
  | canonicalizePath
  | persistTemp
deriving DecidableEq

/-- The error type of `replace_file` as the claims need it: the explicit
`Error::InvalidPath` (line 194) or a propagated I/O failure at one of the
fallible steps. -/
inductive SdError where
  | invalidPath
  | ioError (e : Event)
deriving DecidableEq

/-- Model of Rust's `Result<()>` returned by `replace_file`. -/
inductive RfResult where
  | ok
  | err (e : SdError)
deriving DecidableEq

/-- The target file on disk: its contents and its permission bits. -/
structure FileState where
  contents : List Nat
  perms : Nat
deriving DecidableEq

/-- The observable outcome of one `replace_file` run: the returned result,
the ordered trace of file-system operations attempted (a failed attempt is
the last entry), the final state of the target file, and whether the
temporary file was persisted over the target (when `false`, the dropped `NamedTempFile` is deleted, never
persisted). -/
structure RunOutcome where
  result : RfResult
  trace : List Event
  target : FileState
  tempPersisted : Bool
deriving DecidableEq

/-- An error outcome of `replace_file`: the fallible operation `e` failed
after the operations in `tr`; the error propagates, the target file is left
as it was, and nothing is persisted (a temp file, if created, is dropped and
deleted). -/
def rfFinishErr (f : FileState) (e : Event) (tr : List Event) : RunOutcome :=
  ⟨RfResult.err (SdError.ioError e), tr ++ [e], f, false⟩

/-- Final phase of `replace_file` (src/replacer/mod.rs lines 206-210): drop
the source mapping and handle, canonicalize the path, and atomically persist
the temp file over it.  Only the successful persist changes the target, to
the full replacement bytes with the captured permissions. -/
def rfPersistPhase (fail : Event → Bool) (f : FileState) (replaced : List Nat)
    (tr : List Event) : RunOutcome :=
  if fail Event.canonicalizePath then
    rfFinishErr f Event.canonicalizePath (tr ++ [Event.releaseSource])
  else if fail Event.persistTemp then
    rfFinishErr f Event.persistTemp
      (tr ++ [Event.releaseSource, Event.canonicalizePath])
  else
    ⟨RfResult.ok,
      tr ++ [Event.releaseSource, Event.canonicalizePath, Event.persistTemp],
      ⟨replaced, f.perms⟩, true⟩

/-- Write phase of `replace_file` (src/replacer/mod.rs lines 200-204): when
the replacement buffer is non-empty, map the temp file writable, write all
bytes and flush; an empty buffer leaves the pre-sized empty temp file
as-is. -/
def rfWritePhase (fail : Event → Bool) (f : FileState) (replaced : List Nat)
    (tr : List Event) : RunOutcome :=
  if replaced.isEmpty then
    rfPersistPhase fail f replaced tr
  else if fail Event.mapTempWritable then
    rfFinishErr f Event.mapTempWritable tr
  else if fail Event.writeTemp then
    rfFinishErr f Event.writeTemp (tr ++ [Event.mapTempWritable])
  else if fail Event.flushTemp then
    rfFinishErr f Event.flushTemp
      (tr ++ [Event.mapTempWritable, Event.writeTemp])
  else
    rfPersistPhase fail f replaced
      (tr ++ [Event.mapTempWritable, Event.writeTemp, Event.flushTemp])

/-- Staging phase of `replace_file` (src/replacer/mod.rs lines 192-198):
create the sibling temp file, pre-size it to the replacement length, and copy
the captured permission bits onto it. -/
def rfStagePhase (fail : Event → Bool) (f : FileState) (replaced : List Nat)
    (tr : List Event) : RunOutcome :=
  if fail Event.createTempFile then
    rfFinishErr f Event.createTempFile tr
  else if fail Event.setTempLen then
    rfFinishErr f Event.setTempLen (tr ++ [Event.createTempFile])
  else if fail Event.setTempPermissions then
    rfFinishErr f Event.setTempPermissions
      (tr ++ [Event.createTempFile, Event.setTempLen])
  else
    rfWritePhase fail f replaced
      (tr ++ [Event.createTempFile, Event.setTempLen,
        Event.setTempPermissions])

/-- `Replacer::replace_file` (src/replacer/mod.rs lines 179-211) as a state
machine over the target file, with injected I/O failures: `fail e = true`
makes the fallible operation `e` fail (a missing file is modelled as the
first open failing).  `replaceFn` abstracts `self.replace(..)` on the mapped
source bytes, and `hasParent` is whether `path.parent()` is `Some`.  In
source order: open the file (an open failure propagates), read one byte (any
failure here, in particular an empty file, returns `Ok` with no
modification), reopen, read metadata, map the source read-only, compute the
replacement, check the parent directory (`Error::InvalidPath` when there is
none), then stage, write and persist the temp file.  Only the final persist
changes the target; every failure before it leaves the target bytes
untouched and discards the temp file. -/
def replaceFileModel (replaceFn : List Nat → List Nat) (hasParent : Bool)
    (fail : Event → Bool) (f : FileState) : RunOutcome :=
  if fail Event.openSource then
    ⟨RfResult.err (SdError.ioError Event.openSource), [Event.openSource],
      f, false⟩
  else if f.contents.isEmpty || fail Event.readOneByte then
    ⟨RfResult.ok, [Event.openSource, Event.readOneByte], f, false⟩
  else if fail Event.openSource2 then
    rfFinishErr f Event.openSource2 [Event.openSource, Event.readOneByte]
  else if fail Event.readMetadata then
    rfFinishErr f Event.readMetadata
      [Event.openSource, Event.readOneByte, Event.openSource2]
  else if fail Event.mapSource then
    rfFinishErr f Event.mapSource
      [Event.openSource, Event.readOneByte, Event.openSource2,
        Event.readMetadata]
  else if !hasParent then
    ⟨RfResult.err SdError.invalidPath,
      [Event.openSource, Event.readOneByte, Event.openSource2,
        Event.readMetadata, Event.mapSource, Event.computeReplacement],
      f, false⟩
  else
    rfStagePhase fail f (replaceFn f.contents)
      [Event.openSource, Event.readOneByte, Event.openSource2,
        Event.readMetadata, Event.mapSource, Event.computeReplacement]

theorem replacenLoop_limit_zero (haystack cStart cEnd : List Nat)
    (rep : MatchSpan → List Nat) :
    ∀ (ms : List MatchSpan) (i lastMatch : Nat),
      replacenLoop haystack cStart cEnd false rep 0 ms i lastMatch
        = specReplaceFirstK haystack rep lastMatch ms.length ms := by
  intro ms
  induction ms with
  | nil => intro i lastMatch; simp [replacenLoop, specReplaceFirstK]
  | cons m ms ih =>
      intro i lastMatch
      simp [replacenLoop, specReplaceFirstK, ih (i + 1) m.stop]

theorem replacenLoop_limit_pos (haystack cStart cEnd : List Nat)
    (rep : MatchSpan → List Nat) (limit : Nat) (hlim : 0 < limit) :
    ∀ (ms : List MatchSpan) (i lastMatch : Nat), i < limit →
      replacenLoop haystack cStart cEnd false rep limit ms i lastMatch
        = specReplaceFirstK haystack rep lastMatch (limit - i) ms := by
  intro ms
  induction ms with
  | nil =>
      intro i lastMatch hi
      have hk : ∃ k, limit - i = k + 1 := ⟨limit - i - 1, by omega⟩
      obtain ⟨k, hk⟩ := hk
      simp [replacenLoop, hk, specReplaceFirstK]
  | cons m ms ih =>
      intro i lastMatch hi
      by_cases hbr : limit - 1 ≤ i
      · have hi1 : i = limit - 1 := by omega
        have hk : limit - i = 1 := by omega
        cases ms <;> simp [replacenLoop, hlim, hbr, hk, specReplaceFirstK]
      · have hk : ∃ k, limit - i = k + 2 := ⟨limit - i - 2, by omega⟩
        obtain ⟨k, hk⟩ := hk
        have hk' : limit - (i + 1) = k + 1 := by omega
        simp [replacenLoop, hbr, hk, specReplaceFirstK, ih (i + 1) m.stop (by omega), hk']

theorem specReplaceFirstK_of_length_le (haystack : List Nat)
    (rep : MatchSpan → List Nat) :
    ∀ (ms : List MatchSpan) (k lastMatch : Nat), ms.length ≤ k →
      specReplaceFirstK haystack rep lastMatch k ms
        = specReplaceFirstK haystack rep lastMatch ms.length ms := by
  intro ms
  induction ms with
  | nil => intro k lastMatch _; cases k <;> simp [specReplaceFirstK]
  | cons m ms ih =>
      intro k lastMatch hk
      have hk' : ∃ k', k = k' + 1 := ⟨k - 1, by simp at hk; omega⟩
      obtain ⟨k', hk'⟩ := hk'
      subst hk'
      have : ms.length ≤ k' := by simp at hk; omega
      simp [specReplaceFirstK, ih k' m.stop this]

/-- C1: `replacen` with limit `N > 0` replaces exactly `min(N, total_matches)`
leftmost non-overlapping matches, and with limit `0` it replaces every match
found; by definition of `specReplaceFirstK`, all bytes outside the replaced
spans are copied verbatim from the haystack and any match beyond the `N`-th
lies inside the verbatim tail, hence appears untouched in the output. -/
theorem replacen_limit_min (haystack cStart cEnd : List Nat)
    (rep : MatchSpan → List Nat) (limit : Nat) (ms : List MatchSpan) :
    Cow.toBytes haystack (replacen haystack cStart cEnd false rep limit ms)
      = specReplaceFirstK haystack rep 0
          (if limit = 0 then ms.length else min limit ms.length) ms := by
  cases ms with
  | nil => cases limit <;> simp [replacen, Cow.toBytes, specReplaceFirstK]
  | cons m ms =>
      rcases Nat.eq_zero_or_pos limit with h0 | hpos
      · subst h0
        simp only [replacen, Cow.toBytes, if_pos rfl]
        exact replacenLoop_limit_zero haystack cStart cEnd rep (m :: ms) 0 0
      · have hne : limit ≠ 0 := by omega
        simp only [replacen, Cow.toBytes, if_neg hne]
        rw [replacenLoop_limit_pos haystack cStart cEnd rep limit hpos (m :: ms) 0 0 hpos]
        simp only [Nat.sub_zero]
        rcases Nat.le_total limit (m :: ms).length with hle | hge
        · rw [Nat.min_eq_left hle]
        · rw [Nat.min_eq_right hge,
            specReplaceFirstK_of_length_le haystack rep (m :: ms) limit 0 hge]

/-- C2: `replacen` returns the borrowed input (same reference, no new buffer)
exactly when the matcher found zero matches; the borrowed result denotes the
input bytes unchanged, and with at least one match the result is a newly
built owned buffer. -/
theorem replacen_borrowed_iff (haystack cStart cEnd : List Nat) (useColor : Bool)
    (rep : MatchSpan → List Nat) (limit : Nat) (ms : List MatchSpan) :
    (replacen haystack cStart cEnd useColor rep limit ms = Cow.borrowed ↔ ms = [])
      ∧ Cow.toBytes haystack Cow.borrowed = haystack
      ∧ (ms ≠ [] → replacen haystack cStart cEnd useColor rep limit ms
            = Cow.owned (replacenLoop haystack cStart cEnd useColor rep limit ms 0 0)) := by
  refine ⟨?_, rfl, ?_⟩ <;> cases ms <;> simp [replacen, Cow.toBytes]

/-- Witness for C2 at a concrete input with one match. -/
theorem replacen_borrowed_iff_witness :
    (([⟨0, 1⟩] : List MatchSpan) ≠ [])
      ∧ replacen [5] [] [] false (fun _ => [7]) 0 [⟨0, 1⟩]
          = Cow.owned (replacenLoop [5] [] [] false (fun _ => [7]) 0 [⟨0, 1⟩] 0 0) :=
  ⟨by decide,
    (replacen_borrowed_iff [5] [] [] false (fun _ => [7]) 0 [⟨0, 1⟩]).2.2 (by decide)⟩

theorem replacenLoop_color_wrap (haystack cStart cEnd : List Nat)
    (rep : MatchSpan → List Nat) (limit : Nat) :
    ∀ (ms : List MatchSpan) (i lastMatch : Nat),
      replacenLoop haystack cStart cEnd true rep limit ms i lastMatch
        = replacenLoop haystack cStart cEnd false
            (fun m => cStart ++ rep m ++ cEnd) limit ms i lastMatch := by
  intro ms
  induction ms with
  | nil => intro i lastMatch; simp [replacenLoop]
  | cons m ms ih =>
      intro i lastMatch
      by_cases hbr : 0 < limit ∧ limit - 1 ≤ i
      · simp [replacenLoop, hbr]
      · simp [replacenLoop, hbr, ih (i + 1) m.stop]

/-- C3 (amended): the preview output equals the bytes `replace` produces when
each rendered replacement is wrapped as start-marker ++ replacement ++
end-marker; stripping the markers therefore recovers the non-preview output
exactly when the marker sequences occur nowhere else in the preview output
(which the counterexample shows can fail for content containing marker
bytes). -/
theorem replace_preview_wraps_replace (haystack cStart cEnd : List Nat)
    (rep : MatchSpan → List Nat) (limit : Nat) (ms : List MatchSpan) :
    Cow.toBytes haystack (replacen haystack cStart cEnd true rep limit ms)
      = Cow.toBytes haystack
          (replacen haystack cStart cEnd false
            (fun m => cStart ++ rep m ++ cEnd) limit ms) := by
  cases ms with
  | nil => rfl
  | cons m ms =>
      simpa [replacen, Cow.toBytes] using
        replacenLoop_color_wrap haystack cStart cEnd rep limit (m :: ms) 0 0

/-- C3 counterexample: for content that itself consists of the start-marker
bytes and a literal pattern `x` (byte 120) with no match in it, the preview
output is the unchanged content, and removing every marker occurrence from it
erases the content, which differs from the bytes `replace` produces. -/
theorem preview_strip_counterexample :
    stripAll ansiBlueStart ansiBlueEnd
        (Cow.toBytes [27, 91, 51, 52, 109]
          (Replacer.replacePreview ⟨[120], [121], 0⟩ [27, 91, 51, 52, 109]))
      ≠ Cow.toBytes [27, 91, 51, 52, 109]
          (Replacer.replace ⟨[120], [121], 0⟩ [27, 91, 51, 52, 109]) := by
  decide

theorem hasChar_cons_false {c a : Char} {cs : List Char}
    (h : hasChar (c :: cs) a = false) : c ≠ a ∧ hasChar cs a = false := by
  by_cases hc : c = a
  · simp [hasChar, hc] at h
  · exact ⟨hc, by simpa [hasChar, hc] using h⟩

theorem hasChar_cons_true {c a : Char} {cs : List Char}
    (h : hasChar (c :: cs) a = true) : c = a ∨ hasChar cs a = true := by
  by_cases hc : c = a
  · exact Or.inl hc
  · exact Or.inr (by simpa [hasChar, hc] using h)

theorem applyFlag_w (lookFor flags : List Char) (b : RegexBuilder) :
    applyFlag lookFor flags b 'w' = RegexBuilder.new (wordWrap lookFor) := rfl

theorem applyFlag_multiLine_false (lookFor flags : List Char) (b : RegexBuilder)
    (c : Char) (h : b.multiLine = false) :
    (applyFlag lookFor flags b c).multiLine = false := by
  unfold applyFlag
  split_ifs <;> simp_all [RegexBuilder.new]

theorem applyFlags_multiLine_false (lookFor flags : List Char) :
    ∀ (cs : List Char) (b : RegexBuilder), b.multiLine = false →
      (applyFlags lookFor flags b cs).multiLine = false := by
  intro cs
  induction cs with
  | nil => intro b h; simpa [applyFlags] using h
  | cons c cs ih =>
      intro b h
      simp only [applyFlags]
      exact ih _ (applyFlag_multiLine_false lookFor flags b c h)

theorem applyFlag_multiLine_keep (lookFor flags : List Char) (b : RegexBuilder)
    (c : Char) (hm : hasChar flags 'm' = true) (hw : c ≠ 'w') (he : c ≠ 'e') :
    (applyFlag lookFor flags b c).multiLine = b.multiLine := by
  unfold applyFlag
  split_ifs <;> simp_all

theorem applyFlags_multiLine_keep (lookFor flags : List Char)
    (hm : hasChar flags 'm' = true) :
    ∀ (cs : List Char), hasChar cs 'w' = false → hasChar cs 'e' = false →
      ∀ b : RegexBuilder,
        (applyFlags lookFor flags b cs).multiLine = b.multiLine := by
  intro cs
  induction cs with
  | nil => intro _ _ b; simp [applyFlags]
  | cons c cs ih =>
      intro hw he b
      obtain ⟨hw1, hw2⟩ := hasChar_cons_false hw
      obtain ⟨he1, he2⟩ := hasChar_cons_false he
      simp only [applyFlags]
      rw [ih hw2 he2, applyFlag_multiLine_keep lookFor flags b c hm hw1 he1]

theorem applyFlags_s_kills (lookFor flags : List Char)
    (hm : hasChar flags 'm' = false) :
    ∀ (cs : List Char) (b : RegexBuilder), hasChar cs 's' = true →
      (applyFlags lookFor flags b cs).multiLine = false := by
  intro cs
  induction cs with
  | nil => intro b h; simp [hasChar] at h
  | cons c cs ih =>
      intro b h
      by_cases hc : c = 's'
      · subst hc
        simp only [applyFlags]
        exact applyFlags_multiLine_false lookFor flags cs _
          (by simp [applyFlag, hm])
      · rcases hasChar_cons_true h with h' | h'
        · exact absurd h' hc
        · simp only [applyFlags]
          exact ih _ h'

theorem applyFlag_dotAll (lookFor flags : List Char) (b : RegexBuilder)
    (c : Char) (hw : c ≠ 'w') :
    (applyFlag lookFor flags b c).dotMatchesNewLine
      = (if c = 's' then true else b.dotMatchesNewLine) := by
  unfold applyFlag
  split_ifs <;> simp_all

theorem applyFlags_dotAll (lookFor flags : List Char) :
    ∀ (cs : List Char) (b : RegexBuilder), hasChar cs 'w' = false →
      (applyFlags lookFor flags b cs).dotMatchesNewLine
        = (b.dotMatchesNewLine || hasChar cs 's') := by
  intro cs
  induction cs with
  | nil => intro b _; simp [applyFlags, hasChar]
  | cons c cs ih =>
      intro b hw
      obtain ⟨hw1, hw2⟩ := hasChar_cons_false hw
      simp only [applyFlags]
      rw [ih _ hw2, applyFlag_dotAll lookFor flags b c hw1]
      by_cases hc : c = 's' <;> simp [hasChar, hc]

theorem applyFlags_append (lookFor flags : List Char) :
    ∀ (xs ys : List Char) (b : RegexBuilder),
      applyFlags lookFor flags b (xs ++ ys)
        = applyFlags lookFor flags (applyFlags lookFor flags b xs) ys := by
  intro xs
  induction xs with
  | nil => intro ys b; simp [applyFlags]
  | cons c cs ih => intro ys b; simp [applyFlags, ih]

theorem applyFlag_pattern (lookFor flags : List Char) (b : RegexBuilder)
    (c : Char) :
    (applyFlag lookFor flags b c).pattern = b.pattern
      ∨ (applyFlag lookFor flags b c).pattern = wordWrap lookFor := by
  unfold applyFlag
  split_ifs <;> simp [RegexBuilder.new]

theorem applyFlags_pattern (lookFor flags : List Char) :
    ∀ (cs : List Char) (b : RegexBuilder),
      (applyFlags lookFor flags b cs).pattern = b.pattern
        ∨ (applyFlags lookFor flags b cs).pattern = wordWrap lookFor := by
  intro cs
  induction cs with
  | nil => intro b; simp [applyFlags]
  | cons c cs ih =>
      intro b
      simp only [applyFlags]
      rcases ih (applyFlag lookFor flags b c) with h | h
      · rw [h]; exact applyFlag_pattern lookFor flags b c
      · exact Or.inr h

/-- C6: for a flag string containing `w`, written `pre ++ 'w' :: suf` (the
statement holds for every such decomposition, in particular the one exposing
the last `w`), the compiled configuration equals the one obtained by folding
only the characters after that `w` over a fresh builder on the `\b`-wrapped
pattern: every setting applied by the characters before `w`
(case-sensitivity, dot-matches-newline, multi-line) is discarded by the
rebuild, the characters after `w` still take effect (their `s` handler keeps
consulting the whole flag string for `m`), and the final pattern is the
`\b`-wrapped one. -/
theorem flag_w_rebuild (lookFor pre suf : List Char) :
    compileBuilder lookFor (some (pre ++ 'w' :: suf))
        = applyFlags lookFor (pre ++ 'w' :: suf)
            (RegexBuilder.new (wordWrap lookFor)) suf
      ∧ (compileBuilder lookFor (some (pre ++ 'w' :: suf))).pattern
          = wordWrap lookFor := by
  have h1 : compileBuilder lookFor (some (pre ++ 'w' :: suf))
      = applyFlags lookFor (pre ++ 'w' :: suf)
          (RegexBuilder.new (wordWrap lookFor)) suf := by
    simp only [compileBuilder]
    rw [applyFlags_append]
    simp only [applyFlags, applyFlag_w]
  refine ⟨h1, ?_⟩
  rw [h1]
  rcases applyFlags_pattern lookFor (pre ++ 'w' :: suf) suf
      (RegexBuilder.new (wordWrap lookFor)) with h | h
  · simpa [RegexBuilder.new] using h
  · exact h

/-- C7 counterexample: with flags `sw` (which contain `s`), the `w` rebuild
discards the dot-matches-newline setting, so compilation does not enable it;
and with flags `sme` (which contain `s` and `m`), multi-line matching is
disabled by `e` even though `m` appears in the flag string, so the claimed
equivalence fails in both directions as stated. -/
theorem flag_s_counterexample :
    (compileBuilder ['x'] (some ['s', 'w'])).dotMatchesNewLine = false
      ∧ (compileBuilder ['x'] (some ['s', 'm', 'e'])).multiLine = false
      ∧ hasChar ['s', 'm', 'e'] 'm' = true := by
  decide

/-- C7 (amended): for every flag string containing `s` but containing neither
`w` nor `e`, compilation enables dot-matches-newline, and multi-line matching
ends up disabled if and only if `m` does not appear anywhere in the flag
string (regardless of the relative order of `s` and `m`). -/
theorem flag_s_semantics (lookFor fs : List Char)
    (hs : hasChar fs 's' = true) (hw : hasChar fs 'w' = false)
    (he : hasChar fs 'e' = false) :
    (compileBuilder lookFor (some fs)).dotMatchesNewLine = true
      ∧ ((compileBuilder lookFor (some fs)).multiLine = false
          ↔ hasChar fs 'm' = false) := by
  constructor
  · simp only [compileBuilder]
    rw [applyFlags_dotAll lookFor fs fs _ hw]
    simp [hs]
  · by_cases hm : hasChar fs 'm' = true
    · simp only [compileBuilder]
      rw [applyFlags_multiLine_keep lookFor fs hm fs hw he]
      simp [hm]
    · have hm' : hasChar fs 'm' = false := by
        cases h : hasChar fs 'm'
        · rfl
        · exact absurd h hm
      simp only [compileBuilder]
      rw [applyFlags_s_kills lookFor fs hm' fs _ hs]
      simp [hm']

/-- Witness for C7 (amended) at the flag string `s`. -/
theorem flag_s_semantics_witness :
    (hasChar ['s'] 's' = true ∧ hasChar ['s'] 'w' = false
        ∧ hasChar ['s'] 'e' = false)
      ∧ ((compileBuilder ['x'] (some ['s'])).dotMatchesNewLine = true
          ∧ ((compileBuilder ['x'] (some ['s'])).multiLine = false
              ↔ hasChar ['s'] 'm' = false)) :=
  ⟨⟨by decide, by decide, by decide⟩,
    flag_s_semantics ['x'] ['s'] (by decide) (by decide) (by decide)⟩

theorem applyFlags_w_kills (lookFor flags : List Char) :
    ∀ (cs : List Char) (b : RegexBuilder), hasChar cs 'w' = true →
      (applyFlags lookFor flags b cs).multiLine = false := by
  intro cs
  induction cs with
  | nil => intro b h; simp [hasChar] at h
  | cons c cs ih =>
      intro b h
      by_cases hc : c = 'w'
      · subst hc
        simp only [applyFlags, applyFlag_w]
        exact applyFlags_multiLine_false lookFor flags cs _ rfl
      · rcases hasChar_cons_true h with h' | h'
        · exact absurd h' hc
        · simp only [applyFlags]
          exact ih _ h'

/-- C10: for every flag string containing `w`, the compiled configuration has
multi-line matching disabled: the `w` rebuild starts from the engine default
(multi-line off), discarding the `multi_line(true)` set at the start of
compilation, and since `m` is a no-op no later character ever re-enables
it. -/
theorem flag_w_multiline_disabled (lookFor fs : List Char)
    (h : hasChar fs 'w' = true) :
    (compileBuilder lookFor (some fs)).multiLine = false := by
  simp only [compileBuilder]
  exact applyFlags_w_kills lookFor fs fs _ h

/-- Witness for C10 at the flag string `w`. -/
theorem flag_w_multiline_disabled_witness :
    hasChar ['w'] 'w' = true
      ∧ (compileBuilder ['a'] (some ['w'])).multiLine = false :=
  ⟨by decide, flag_w_multiline_disabled ['a'] ['w'] (by decide)⟩

/-- C4 counterexample: on a path with no parent directory and a non-empty
readable file, `replace_file` does return the explicit `InvalidPath` error,
but only after the target file has been opened, read and memory-mapped: the
operation trace of the failing run contains the open, read and map events,
contradicting the claim that the error is raised before any file I/O. -/
theorem invalid_path_counterexample :
    (replaceFileModel (fun bs => bs) false (fun _ => false)
        ⟨[1], 0⟩).result = RfResult.err SdError.invalidPath
      ∧ Event.openSource ∈ (replaceFileModel (fun bs => bs) false
          (fun _ => false) ⟨[1], 0⟩).trace
      ∧ Event.readOneByte ∈ (replaceFileModel (fun bs => bs) false
          (fun _ => false) ⟨[1], 0⟩).trace
      ∧ Event.mapSource ∈ (replaceFileModel (fun bs => bs) false
          (fun _ => false) ⟨[1], 0⟩).trace := by
  decide

/-- C4 (amended): on a path with no parent directory, when the file exists,
is non-empty and the preceding operations succeed, `replace_file` fails with
the explicit `InvalidPath` error after the source file has been opened, read
and mapped, but before any temporary file is created, before any write, and
before the rename: the full trace is exactly open, read, reopen, metadata,
map, compute, and the target file is left unchanged with nothing
persisted. -/
theorem invalid_path_before_temp (replaceFn : List Nat → List Nat)
    (fail : Event → Bool) (cs : List Nat) (p : Nat)
    (h1 : fail Event.openSource = false) (h2 : cs.isEmpty = false)
    (h3 : fail Event.readOneByte = false)
    (h4 : fail Event.openSource2 = false)
    (h5 : fail Event.readMetadata = false)
    (h6 : fail Event.mapSource = false) :
    replaceFileModel replaceFn false fail ⟨cs, p⟩
      = ⟨RfResult.err SdError.invalidPath,
          [Event.openSource, Event.readOneByte, Event.openSource2,
            Event.readMetadata, Event.mapSource, Event.computeReplacement],
          ⟨cs, p⟩, false⟩ := by
  simp [replaceFileModel, h1, h2, h3, h4, h5, h6]

/-- Witness for C4 (amended) at a concrete one-byte file with no injected
failures. -/
theorem invalid_path_before_temp_witness :
    ((fun _ : Event => false) Event.openSource = false
        ∧ ([1] : List Nat).isEmpty = false)
      ∧ replaceFileModel (fun bs => bs) false (fun _ => false) ⟨[1], 0⟩
          = ⟨RfResult.err SdError.invalidPath,
              [Event.openSource, Event.readOneByte, Event.openSource2,
                Event.readMetadata, Event.mapSource, Event.computeReplacement],
              ⟨[1], 0⟩, false⟩ :=
  ⟨⟨rfl, rfl⟩,
    invalid_path_before_temp (fun bs => bs) (fun _ => false) [1] 0
      rfl rfl rfl rfl rfl rfl⟩

/-- C8: on a zero-length file that can be opened, the attempt to read exactly
one byte fails, and `replace_file` returns `Ok` immediately: the trace is
exactly the open and the one-byte read, so no replacement is computed, no
temporary file is created and no rename occurs, and the file is left empty
and unchanged. -/
theorem replace_file_empty_ok (replaceFn : List Nat → List Nat)
    (hasParent : Bool) (fail : Event → Bool) (p : Nat)
    (h1 : fail Event.openSource = false) :
    replaceFileModel replaceFn hasParent fail ⟨[], p⟩
      = ⟨RfResult.ok, [Event.openSource, Event.readOneByte],
          ⟨[], p⟩, false⟩ := by
  simp [replaceFileModel, h1]

/-- Witness for C8 at a concrete empty file. -/
theorem replace_file_empty_ok_witness :
    ((fun _ : Event => false) Event.openSource = false)
      ∧ replaceFileModel (fun bs => bs) true (fun _ => false) ⟨[], 7⟩
          = ⟨RfResult.ok, [Event.openSource, Event.readOneByte],
              ⟨[], 7⟩, false⟩ :=
  ⟨rfl, replace_file_empty_ok (fun bs => bs) true (fun _ => false) 7 rfl⟩

theorem rfPersistPhase_ok_or_untouched (fail : Event → Bool) (f : FileState)
    (replaced : List Nat) (tr : List Event) :
    (rfPersistPhase fail f replaced tr).result = RfResult.ok
      ∨ ((rfPersistPhase fail f replaced tr).target = f
          ∧ (rfPersistPhase fail f replaced tr).tempPersisted = false) := by
  unfold rfPersistPhase rfFinishErr
  split_ifs <;> first
    | exact Or.inl rfl
    | exact Or.inr ⟨rfl, rfl⟩

theorem rfWritePhase_ok_or_untouched (fail : Event → Bool) (f : FileState)
    (replaced : List Nat) (tr : List Event) :
    (rfWritePhase fail f replaced tr).result = RfResult.ok
      ∨ ((rfWritePhase fail f replaced tr).target = f
          ∧ (rfWritePhase fail f replaced tr).tempPersisted = false) := by
  unfold rfWritePhase rfFinishErr
  split_ifs <;> first
    | exact Or.inr ⟨rfl, rfl⟩
    | exact rfPersistPhase_ok_or_untouched fail f _ _

theorem rfStagePhase_ok_or_untouched (fail : Event → Bool) (f : FileState)
    (replaced : List Nat) (tr : List Event) :
    (rfStagePhase fail f replaced tr).result = RfResult.ok
      ∨ ((rfStagePhase fail f replaced tr).target = f
          ∧ (rfStagePhase fail f replaced tr).tempPersisted = false) := by
  unfold rfStagePhase rfFinishErr
  split_ifs <;> first
    | exact Or.inr ⟨rfl, rfl⟩
    | exact rfWritePhase_ok_or_untouched fail f _ _

theorem replaceFileModel_ok_or_untouched (replaceFn : List Nat → List Nat)
    (hasParent : Bool) (fail : Event → Bool) (f : FileState) :
    (replaceFileModel replaceFn hasParent fail f).result = RfResult.ok
      ∨ ((replaceFileModel replaceFn hasParent fail f).target = f
          ∧ (replaceFileModel replaceFn hasParent fail f).tempPersisted
              = false) := by
  unfold replaceFileModel
  split_ifs <;> first
    | exact Or.inl rfl
    | exact Or.inr ⟨rfl, rfl⟩
    | exact rfStagePhase_ok_or_untouched fail f _ _

/-- C9: whenever `replace_file` returns an error — in particular whenever any
step after the temporary file is created and before the final rename fails —
the target file's bytes and permissions are left exactly as they were and the
temporary file is never persisted (it is dropped and deleted); the target is
only ever modified by the final atomic persist of a successful run, so no
partially written state of the target is observable. -/
theorem replace_file_error_atomic (replaceFn : List Nat → List Nat)
    (hasParent : Bool) (fail : Event → Bool) (f : FileState)
    (e : SdError)
    (h : (replaceFileModel replaceFn hasParent fail f).result
          = RfResult.err e) :
    (replaceFileModel replaceFn hasParent fail f).target = f
      ∧ (replaceFileModel replaceFn hasParent fail f).tempPersisted
          = false := by
  rcases replaceFileModel_ok_or_untouched replaceFn hasParent fail f
      with hok | hun
  · rw [hok] at h
    exact absurd h (by simp)
  · exact hun

/-- Witness for C9: a run whose temp-file creation fails returns that error
and leaves the one-byte target untouched, with nothing persisted. -/
theorem replace_file_error_atomic_witness :
    ((replaceFileModel (fun bs => bs) true
          (fun e => decide (e = Event.createTempFile))
          ⟨[1], 0⟩).result
        = RfResult.err (SdError.ioError Event.createTempFile))
      ∧ (replaceFileModel (fun bs => bs) true
            (fun e => decide (e = Event.createTempFile))
            ⟨[1], 0⟩).target = ⟨[1], 0⟩
      ∧ (replaceFileModel (fun bs => bs) true
            (fun e => decide (e = Event.createTempFile))
            ⟨[1], 0⟩).tempPersisted = false := by
  refine ⟨by decide, ?_⟩
  exact replace_file_error_atomic (fun bs => bs) true
    (fun e => decide (e = Event.createTempFile)) ⟨[1], 0⟩
    (SdError.ioError Event.createTempFile) (by decide)

theorem byteSlice_eq_take_drop (xs : List Nat) (lo hi : Nat) :
    byteSlice xs lo hi = (xs.drop lo).take (hi - lo) := by
  unfold byteSlice
  exact List.drop_take hi lo xs

theorem byteSlice_shift (hay : List Nat) (x : Nat) (xs : List Nat)
    (pos hi : Nat) (hd : hay.drop pos = x :: xs) (hhi : pos + 1 ≤ hi) :
    byteSlice hay pos hi = x :: byteSlice hay (pos + 1) hi := by
  have hd1 : hay.drop (pos + 1) = xs := by
    have h1 : (hay.drop pos).drop 1 = xs := by rw [hd]; rfl
    rwa [List.drop_drop 1 pos hay] at h1
  rw [byteSlice_eq_take_drop, byteSlice_eq_take_drop, hd, hd1]
  have hk : hi - pos = (hi - (pos + 1)) + 1 := by omega
  rw [hk]
  rfl

theorem replacenLoop_shift (hay cS cE : List Nat) (rep : MatchSpan → List Nat)
    (x : Nat) (xs : List Nat) (ms : List MatchSpan) (i pos : Nat)
    (hd : hay.drop pos = x :: xs)
    (hms : ∀ m ∈ ms, pos + 1 ≤ m.start) :
    replacenLoop hay cS cE false rep 0 ms i pos
      = x :: replacenLoop hay cS cE false rep 0 ms i (pos + 1) := by
  have hd1 : hay.drop (pos + 1) = xs := by
    have h1 : (hay.drop pos).drop 1 = xs := by rw [hd]; rfl
    rwa [List.drop_drop 1 pos hay] at h1
  cases ms with
  | nil =>
      simp only [replacenLoop]
      rw [hd, hd1]
  | cons m ms =>
      have hstart : pos + 1 ≤ m.start := hms m (List.mem_cons_self m ms)
      simp only [replacenLoop]
      rw [byteSlice_shift hay x xs pos m.start hd hstart]
      simp

theorem literalMatchesAux_start_ge (needle hay : List Nat) :
    ∀ (fuel pos : Nat) (m : MatchSpan),
      m ∈ literalMatchesAux needle hay fuel pos → pos ≤ m.start := by
  intro fuel
  induction fuel with
  | zero => intro pos m hm; simp [literalMatchesAux] at hm
  | succ fuel ih =>
      intro pos m hm
      by_cases hp : pos < hay.length
      · simp only [literalMatchesAux, if_pos hp] at hm
        by_cases hpre : needle ≠ [] ∧ needle.isPrefixOf (hay.drop pos)
        · rw [if_pos hpre] at hm
          rcases List.mem_cons.mp hm with h | h
          · subst h; exact Nat.le_refl pos
          · have := ih (pos + needle.length) m h
            omega
        · rw [if_neg hpre] at hm
          have := ih (pos + 1) m hm
          omega
      · simp [literalMatchesAux, hp] at hm

theorem literal_bridge (needle rep hay cS cE : List Nat) (hne : needle ≠ []) :
    ∀ (fuel pos i : Nat), hay.length < fuel + pos →
      replacenLoop hay cS cE false (fun _ => rep) 0
          (literalMatchesAux needle hay fuel pos) i pos
        = specLiteralReplaceAll needle rep (hay.drop pos) := by
  intro fuel
  induction fuel with
  | zero =>
      intro pos i hfuel
      have hdrop : hay.drop pos = [] := List.drop_eq_nil_of_le (by omega)
      simp [literalMatchesAux, replacenLoop, hdrop, specLiteralReplaceAll]
  | succ fuel ih =>
      intro pos i hfuel
      by_cases hp : pos < hay.length
      · obtain ⟨x, xs, hd⟩ : ∃ x xs, hay.drop pos = x :: xs := by
          cases hcase : hay.drop pos with
          | nil =>
              have hlen := congrArg List.length hcase
              simp only [List.length_drop, List.length_nil] at hlen
              exact absurd hp (by omega)
          | cons y ys => exact ⟨y, ys, rfl⟩
        have hd1 : hay.drop (pos + 1) = xs := by
          have h1 : (hay.drop pos).drop 1 = xs := by rw [hd]; rfl
          rwa [List.drop_drop 1 pos hay] at h1
        by_cases hpre : needle.isPrefixOf (hay.drop pos)
        · have hn : 0 < needle.length := List.length_pos.mpr hne
          have hcond : needle ≠ [] ∧ needle.isPrefixOf (hay.drop pos) :=
            ⟨hne, hpre⟩
          have hcond' : needle ≠ [] ∧ needle.isPrefixOf (x :: xs) := by
            rw [← hd]; exact hcond
          have hdropn : (x :: xs).drop needle.length
              = hay.drop (pos + needle.length) := by
            rw [← hd, List.drop_drop needle.length pos hay]
          have hrec := ih (pos + needle.length) (i + 1) (by omega)
          simp only [literalMatchesAux, if_pos hp, if_pos hcond]
          rw [hd]
          simp only [specLiteralReplaceAll]
          rw [dif_pos hcond', hdropn, ← hrec]
          have hslice0 : byteSlice hay pos pos = [] := by
            rw [byteSlice_eq_take_drop]; simp
          simp [replacenLoop, hslice0]
        · have hcond2 : ¬(needle ≠ [] ∧ needle.isPrefixOf (hay.drop pos)) :=
            fun hcc => hpre hcc.2
          have hcond2' : ¬(needle ≠ [] ∧ needle.isPrefixOf (x :: xs)) := by
            rw [← hd]; exact hcond2
          simp only [literalMatchesAux, if_pos hp, if_neg hcond2]
          have hlb : ∀ m ∈ literalMatchesAux needle hay fuel (pos + 1),
              pos + 1 ≤ m.start :=
            fun m hm => literalMatchesAux_start_ge needle hay fuel (pos + 1) m hm
          rw [replacenLoop_shift hay cS cE (fun _ => rep) x xs _ i pos hd hlb]
          rw [ih (pos + 1) i (by omega), hd1, hd]
          simp only [specLiteralReplaceAll]
          rw [dif_neg hcond2']
      · have hdrop : hay.drop pos = [] := List.drop_eq_nil_of_le (by omega)
        simp [literalMatchesAux, hp, replacenLoop, hdrop, specLiteralReplaceAll]

/-- C5: in literal mode every character of `look_for` is matched verbatim and
`replace_with` is copied verbatim with no capture interpolation: with any
non-empty literal `look_for`, `replace` (limit `0`) produces exactly the
spec-side literal replacement, which replaces precisely the exact
occurrences of `look_for`'s byte sequence (so `"a.b"` matches only the bytes
`"a.b"`, never `"aXb"`) and splices in `replace_with`'s bytes unchanged even
when they contain interpolation syntax such as `$1`. -/
theorem literal_replace_verbatim (lookFor replaceWith content : List Nat)
    (hne : lookFor ≠ []) :
    Cow.toBytes content (Replacer.replace ⟨lookFor, replaceWith, 0⟩ content)
      = specLiteralReplaceAll lookFor replaceWith content := by
  have hb := literal_bridge lookFor replaceWith content ansiBlueStart
    ansiBlueEnd hne (content.length + 1) 0 0 (by omega)
  rw [List.drop_zero] at hb
  show Cow.toBytes content
      (replacen content ansiBlueStart ansiBlueEnd false (fun _ => replaceWith)
        0 (literalMatches lookFor content))
    = specLiteralReplaceAll lookFor replaceWith content
  unfold literalMatches
  cases hm : literalMatchesAux lookFor content (content.length + 1) 0 with
  | nil =>
      rw [hm] at hb
      simp only [replacenLoop, List.drop_zero] at hb
      simpa [replacen, Cow.toBytes] using hb
  | cons m ms =>
      rw [hm] at hb
      simpa [replacen, Cow.toBytes] using hb

/-- Witness for C5 with `look_for = "a.b"`, `replace_with = "$1"` and content
`"a.b"`. -/
theorem literal_replace_verbatim_witness :
    (([97, 46, 98] : List Nat) ≠ [])
      ∧ Cow.toBytes [97, 46, 98]
            (Replacer.replace ⟨[97, 46, 98], [36, 49], 0⟩ [97, 46, 98])
          = specLiteralReplaceAll [97, 46, 98] [36, 49] [97, 46, 98] :=
  ⟨by decide,
    literal_replace_verbatim [97, 46, 98] [36, 49] [97, 46, 98] (by decide)⟩
